import Mathlib

/-!
Verification of the Funda Wande sushi-chef ingestion pipeline
(`src/sushichef.py`) against its natural-language specification.

The Python source is shallowly embedded: the mutable instance dictionaries
(`self.topics`, `self.pdfs`, `self.videos`, the seen-url list, the
`used_resorces` list, the subtopic dictionary) become explicit
insertion-ordered association lists threaded through pure functions,
Python exceptions become `Except`, and the filesystem touched by the
transcode gate becomes an explicit path-to-bytes map.  Side-effecting
collaborators (the HTTP transport, the fitz compression engine) are
passed in as function parameters, and the observable calls made to them
are recorded in explicit event traces.
-/

namespace FundaWande

/-- Decidable equality for `Except`, used to evaluate the model on
closed inputs. -/
instance {ε : Type u} {α : Type v} [DecidableEq ε] [DecidableEq α] :
    DecidableEq (Except ε α) := fun a b =>
  match a, b with
  | .error e₁, .error e₂ =>
    if h : e₁ = e₂ then isTrue (by rw [h])
    else isFalse (by intro hh; cases hh; exact h rfl)
  | .error _, .ok _ => isFalse (by intro hh; cases hh)
  | .ok _, .error _ => isFalse (by intro hh; cases hh)
  | .ok v₁, .ok v₂ =>
    if h : v₁ = v₂ then isTrue (by rw [h])
    else isFalse (by intro hh; cases hh; exact h rfl)

/-! ## String primitives

Python string operations used by the source, modelled over `List Char`
so that every definition reduces in the kernel. -/

/-- Python `str.strip()`: drop whitespace from both ends. -/
def pyStrip (s : String) : String :=
  ⟨((s.data.dropWhile Char.isWhitespace).reverse.dropWhile Char.isWhitespace).reverse⟩

/-- Character-list prefix test (used by the substring test below). -/
def listIsPre : List Char → List Char → Bool
  | [], _ => true
  | _ :: _, [] => false
  | a :: as, b :: bs => a = b && listIsPre as bs

/-- Character-list substring test. -/
def containsSub (pat : List Char) : List Char → Bool
  | [] => pat.isEmpty
  | c :: rest => listIsPre pat (c :: rest) || containsSub pat rest

/-- Python `pat in s` on strings: substring containment. -/
def strContains (s pat : String) : Bool :=
  containsSub pat.data s.data

/-- Python `s.replace(" ", "_")` (the pattern is a single character, so
the replacement is a character map). -/
def underscore (s : String) : String :=
  ⟨s.data.map (fun c => if c = ' ' then '_' else c)⟩

/-- Python `s[-3:]`: the last `n` characters (the whole string when it is
shorter than `n`). -/
def lastN (s : String) (n : Nat) : String :=
  ⟨s.data.drop (s.data.length - n)⟩

/-- The single-quote character, the separator of `onclick_attr.split("'")`. -/
def quoteChar : Char := Char.ofNat 39

/-- Python `s.split(sep)` for a single-character separator. -/
def splitChar (sep : Char) : List Char → List (List Char)
  | [] => [[]]
  | c :: rest =>
    let r := splitChar sep rest
    if c = sep then [] :: r
    else
      match r with
      | [] => [[c]]
      | h :: t => (c :: h) :: t

/-- Concrete-input helper: an inline `onclick` attribute of the shape
the video listing uses, built without quote characters in source
literals. -/
def mkOnclick (path : String) : String :=
  "x(" ++ String.mk [quoteChar] ++ path ++ String.mk [quoteChar] ++ ")"

/-! ## Insertion-ordered dictionaries

Python `dict`s keep insertion order; assigning to an existing key
replaces the value in place, assigning to a fresh key appends. -/

/-- Python `d.get(k)` / `d[k]` lookup on an insertion-ordered dictionary. -/
def dictGet {α : Type} (d : List (String × α)) (k : String) : Option α :=
  match d with
  | [] => none
  | p :: rest => if p.1 = k then some p.2 else dictGet rest k

/-- Python `d[k] = v`: replace in place when the key is present, append
otherwise. -/
def dictUpsert {α : Type} (d : List (String × α)) (k : String) (v : α) :
    List (String × α) :=
  if (dictGet d k).isSome then
    d.map (fun p => if p.1 = k then (k, v) else p)
  else d ++ [(k, v)]

/-- The `self.topics` registration of `crawl`: create the group `[idx]` on
first sight of a topic, append `idx` to the existing group otherwise. -/
def topicsAdd (t : List (String × List String)) (topic idx : String) :
    List (String × List String) :=
  if (dictGet t topic).isSome then
    t.map (fun p => if p.1 = topic then (p.1, p.2 ++ [idx]) else p)
  else t ++ [(topic, [idx])]

/-! ## Constants of the source -/

def COURSE_URL : String := "https://fundawande.org"

def SIZE_LIMIT : Nat := 15 * 1024 * 1024

/-! ## The crawl (resource extraction) pass

`FundaWandeSushiChef.crawl(section, element)`: one matched DOM element
carries the five attributes read by the source.  The element kind is a
property of the whole pass (`element == "a"` for the learning-resources
crawl, `"button"` for the video crawl) and is modelled by the `isLink`
flag. -/

structure Elem where
  href : String
  onclick : String
  label : String
  cat1 : String
  cat2 : String
  cat3 : String
deriving Repr, DecidableEq

structure Resource where
  name : String
  topic : String
  level : String
  term : String
  url : String
deriving Repr, DecidableEq

/-- Unrecovered Python exceptions of the crawl loop: reading the local
variable `level` before its first assignment (an `UnboundLocalError` at
line 147), and an `onclick` attribute without a second quote-delimited
field (an `IndexError` at line 134). -/
inductive CrawlErr where
  | unboundLevel
  | badOnclick
deriving Repr, DecidableEq

/-- The mutable state visible to one iteration of the crawl loop:
`self.topics` (shared across both passes), the per-pass `resources` and
`urls` accumulators, and the Python local variable `level`, which leaks
from one loop iteration into the next (`none` before its first
assignment). -/
structure CrawlState where
  topics : List (String × List String)
  resources : List (String × Resource)
  urls : List String
  level : Option String
deriving Repr, DecidableEq

/-- Lines 148-153: the topic-exclusion filter (case-sensitive substring
containment). -/
def excludedTopic (topic : String) : Bool :=
  strContains topic "Covid" || strContains topic "Phonics" ||
    strContains topic "Marksheets" || strContains topic "Strategy"

/-- Lines 130-134: resolve the candidate URL of an element.  A plain link
uses its `href`; a trigger element parses the URL out of the inline
`onclick` attribute (`onclick_attr.split("'")[1]`). -/
def resolveUrl (isLink : Bool) (link : Elem) : Except CrawlErr String :=
  if isLink then .ok (COURSE_URL ++ link.href)
  else
    match (splitChar quoteChar link.onclick.data).get? 1 with
    | some part => .ok (COURSE_URL ++ String.mk part)
    | none => .error .badOnclick

/-- Lines 144-147: the Reading-for-Meaning naming adjustment.  It reads
the Python local variable `level` as it stands *before* this iteration's
assignment at line 157: the previous iteration's value, or an
`UnboundLocalError` when no earlier iteration assigned it. -/
def adjustedName (isLink : Bool) (lvl : Option String) (topic₀ name₀ : String) :
    Except CrawlErr String :=
  if topic₀ = "Reading for Meaning Course" ∧ isLink = false then
    match lvl with
    | some lv => .ok (lv ++ ": " ++ name₀)
    | none => .error .unboundLevel
  else .ok name₀

/-- The identity key of line 159-160 as a function of the stored record's
fields (the record stores exactly the adjusted/aliased values the key is
built from). -/
def keyFormula (r : Resource) : String :=
  underscore (r.topic ++ "-" ++ r.level ++ "-" ++ r.term ++ "-" ++ r.name ++ "_id")

/-- Lines 140-172: the body of the crawl loop after the two skip checks,
in source order: append the url to the seen list, read and trim the
attributes, apply the naming adjustment, the exclusion filter, the
Maths-Workbooks alias, compute the identity key, and register the
record. -/
def crawlRegister (isLink : Bool) (st : CrawlState) (link : Elem) (url : String) :
    Except CrawlErr CrawlState :=
  let urls' := st.urls ++ [url]
  let name₀ := pyStrip link.label
  let topic₀ := pyStrip link.cat1
  match adjustedName isLink st.level topic₀ name₀ with
  | .error e => .error e
  | .ok name₁ =>
    if excludedTopic topic₀ then .ok { st with urls := urls' }
    else
      let topic₁ := if topic₀ = "Maths Workbooks" then "Maths" else topic₀
      let level := pyStrip link.cat2
      let term := pyStrip link.cat3
      let r : Resource := ⟨name₁, topic₁, level, term, url⟩
      .ok { topics := topicsAdd st.topics topic₁ (keyFormula r)
            resources := dictUpsert st.resources (keyFormula r) r
            urls := urls'
            level := some level }

/-- One iteration of the crawl loop (lines 129-172): url resolution, the
`mp4` filter for trigger elements, the seen-url dedup, then the
registration body. -/
def crawlStep (isLink : Bool) (st : CrawlState) (link : Elem) :
    Except CrawlErr CrawlState :=
  match resolveUrl isLink link with
  | .error e => .error e
  | .ok url =>
    if isLink = false ∧ lastN url 3 ≠ "mp4" then .ok st
    else if url ∈ st.urls then .ok st
    else crawlRegister isLink st link url

/-- The crawl loop over the matched elements. -/
def crawl (isLink : Bool) (links : List Elem) (st : CrawlState) :
    Except CrawlErr CrawlState :=
  match links with
  | [] => .ok st
  | l :: rest =>
    match crawlStep isLink st l with
    | .error e => .error e
    | .ok st' => crawl isLink rest st'

/-- One call of `self.crawl(section, element)`: fresh `resources`, `urls`
and `level`, while `self.topics` carries over from the previous pass. -/
def crawlPass (isLink : Bool) (topics₀ : List (String × List String))
    (links : List Elem) : Except CrawlErr CrawlState :=
  crawl isLink links { topics := topics₀, resources := [], urls := [], level := none }

/-- The crawling part of `pre_run`: `self.topics = {}`, the document pass
over `/learning-resources` with `element = "a"`, then the video pass over
`/video-resources` with `element = "button"`. -/
structure PreRunOut where
  topics : List (String × List String)
  pdfs : List (String × Resource)
  videos : List (String × Resource)
deriving Repr, DecidableEq

def pre_run (linksDocs linksVideos : List Elem) : Except CrawlErr PreRunOut :=
  match crawlPass true [] linksDocs with
  | .error e => .error e
  | .ok st₁ =>
    match crawlPass false st₁.topics linksVideos with
    | .error e => .error e
    | .ok st₂ => .ok ⟨st₂.topics, st₁.resources, st₂.resources⟩

/-! ## The transcode gate (`download_and_compress_pdfs`)

The filesystem under `chefdata/` is modelled as a path-to-bytes map, the
HTTP download of a pdf (`requests.get(...).content`) as a `remote`
function from url to bytes, and the fitz save as a `compressPdf`
function returning `none` when fitz raises `ValueError` (which the
source converts into `sys.exit(1)`, modelled as `Except.error`).  The
calls actually performed are recorded as events. -/

abbrev FS := List (String × List Nat)

inductive GateEvent where
  | download (k : String)
  | compress (k : String)
deriving Repr, DecidableEq

def pdfPath (k : String) : String := "chefdata/" ++ k ++ ".pdf"

def compressedPath (k : String) : String := "chefdata/compressed/" ++ k ++ ".pdf"

/-- Lines 182-188: download and persist the raw pdf bytes unless they
are already cached. -/
def rawEnsureFS (remote : String → List Nat) (fs : FS) (k : String) (r : Resource) : FS :=
  if (dictGet fs (pdfPath k)).isSome then fs
  else dictUpsert fs (pdfPath k) (remote r.url)

/-- The download event recorded by lines 182-188, if any. -/
def rawEnsureEvents (fs : FS) (events : List GateEvent) (k : String) : List GateEvent :=
  if (dictGet fs (pdfPath k)).isSome then events
  else events ++ [.download k]

/-- One iteration of the `download_and_compress_pdfs` loop (lines
178-206) for the pdf with identity key `kr.1` and record `kr.2`:
skip outright when the compressed output exists; otherwise download the
raw bytes unless cached, then either copy them verbatim (size at most
`SIZE_LIMIT`) or run them through the compression transform (size
strictly above `SIZE_LIMIT`, aborting the run when the transform
fails). -/
def gateStep (remote : String → List Nat) (compressPdf : List Nat → Option (List Nat))
    (st : FS × List GateEvent) (kr : String × Resource) :
    Except Unit (FS × List GateEvent) :=
  let fs := st.1
  let events := st.2
  let k := kr.1
  if (dictGet fs (compressedPath k)).isSome then .ok (fs, events)
  else
    match dictGet (rawEnsureFS remote fs k kr.2) (pdfPath k) with
    | none => .error ()
    | some raw =>
      if raw.length > SIZE_LIMIT then
        match compressPdf raw with
        | some out =>
          .ok (dictUpsert (rawEnsureFS remote fs k kr.2) (compressedPath k) out,
            rawEnsureEvents fs events k ++ [.compress k])
        | none => .error ()
      else
        .ok (dictUpsert (rawEnsureFS remote fs k kr.2) (compressedPath k) raw,
          rawEnsureEvents fs events k)

def gateRun (remote : String → List Nat) (compressPdf : List Nat → Option (List Nat)) :
    List (String × Resource) → FS × List GateEvent → Except Unit (FS × List GateEvent)
  | [], st => .ok st
  | kr :: rest, st =>
    match gateStep remote compressPdf st kr with
    | .error e => .error e
    | .ok st' => gateRun remote compressPdf rest st'

/-- The method `download_and_compress_pdfs`: iterate the gate over the pdf pool in
insertion order, starting from the current on-disk state with an empty
event trace. -/
def download_and_compress_pdfs (remote : String → List Nat)
    (compressPdf : List Nat → Option (List Nat))
    (pdfs : List (String × Resource)) (fs : FS) :
    Except Unit (FS × List GateEvent) :=
  gateRun remote compressPdf pdfs (fs, [])

/-! ## The resilient fetcher (`make_request`)

The transport is a function from the zero-based attempt index to the
outcome of that attempt; `time.sleep` and the issued attempts are
recorded as events.  `max_retries = 5`. -/

inductive TransportOutcome where
  | connError
  | readTimeout
  | response (status : Nat)
deriving Repr, DecidableEq

inductive FetchEvent where
  | attempt (i : Nat)
  | sleep (n : Nat)
deriving Repr, DecidableEq

/-- The `while True` loop of `make_request` (lines 36-53): on a
connection or read-timeout failure, increment `retry_count`, sleep
`retry_count * 1` seconds, and give up with `None` once
`retry_count >= max_retries`; on any response, leave the loop.
Terminates because `5 - retryCount` strictly decreases on retries. -/
def requestLoop (transport : Nat → TransportOutcome) (retryCount attemptIdx : Nat)
    (trace : List FetchEvent) : List FetchEvent × Option Nat :=
  match transport attemptIdx with
  | .response code => (trace ++ [.attempt attemptIdx], some code)
  | .connError | .readTimeout =>
    let rc := retryCount + 1
    if h : 5 ≤ rc then (trace ++ [.attempt attemptIdx, .sleep rc], none)
    else requestLoop transport rc (attemptIdx + 1) (trace ++ [.attempt attemptIdx, .sleep rc])
termination_by 5 - retryCount
decreasing_by all_goals omega

/-- The helper `make_request` (lines 28-57): run the retry loop, then treat any
non-200 status as a terminal `None`. -/
def make_request (transport : Nat → TransportOutcome) :
    List FetchEvent × Option Nat :=
  match requestLoop transport 0 0 [] with
  | (trace, none) => (trace, none)
  | (trace, some code) => if code ≠ 200 then (trace, none) else (trace, some code)

/-! ## The tree assembler (`construct_channel` / `get_subtopic_node`)

Leaves carry their `source_id` (the identity key), the file reference
(local compressed path for documents, remote url for videos) and the
display title.  A topic node's children interleave lazily created
subtopic nodes and directly attached leaves, in attachment order;
appending a leaf to an already attached subtopic node mutates that child
in place net of the Python object aliasing. -/

inductive Leaf where
  | doc (sourceId : String) (path : String) (title : String)
  | video (sourceId : String) (path : String) (title : String)
deriving Repr, DecidableEq

def Leaf.key : Leaf → String
  | .doc k _ _ => k
  | .video k _ _ => k

def Leaf.isDoc : Leaf → Bool
  | .doc _ _ _ => true
  | .video _ _ _ => false

inductive Child where
  | sub (sourceId : String) (title : String) (leaves : List Leaf)
  | leaf (l : Leaf)
deriving Repr, DecidableEq

def Child.isSub : Child → Bool
  | .sub _ _ _ => true
  | .leaf _ => false

structure TNode where
  sourceId : String
  title : String
  children : List Child
deriving Repr, DecidableEq

def childLeaves : Child → List Leaf
  | .sub _ _ ls => ls
  | .leaf l => [l]

def childrenLeaves : List Child → List Leaf
  | [] => []
  | c :: cs => childLeaves c ++ childrenLeaves cs

def treeLeaves : List TNode → List Leaf
  | [] => []
  | n :: ns => childrenLeaves n.children ++ treeLeaves ns

/-- The titles of the subtopic nodes among a topic node's children, in
attachment order (these are exactly the keys of `self.subtopics`). -/
def subTitles : List Child → List String
  | [] => []
  | .sub _ t _ :: cs => t :: subTitles cs
  | .leaf _ :: cs => subTitles cs

/-- The method `get_subtopic_node` (lines 214-229): a resource whose `level` lacks
the grade marker attaches to the topic node; otherwise, when the topic
is being split, the subtopic node for that level is created on first use
(source id `level ++ "_id"`, no space normalization) and returned.  The
result is the updated children and subtopic dictionary plus the target
(`none` = the topic node itself, `some lv` = the subtopic titled `lv`). -/
def get_subtopic_node (usingSubs : Bool) (cs : List Child) (subs : List String)
    (r : Resource) : List Child × List String × Option String :=
  if strContains r.level "Grade" = false then (cs, subs, none)
  else if usingSubs then
    if r.level ∈ subs then (cs, subs, some r.level)
    else (cs ++ [.sub (r.level ++ "_id") r.level []], subs ++ [r.level], some r.level)
  else (cs, subs, none)

/-- In-place mutation of the subtopic child titled `lv`: append the leaf
to its leaf list, leave every other child as it is. -/
def bumpSub (lv : String) (l : Leaf) (c : Child) : Child :=
  match c with
  | .sub sid t ls => if t = lv then .sub sid t (ls ++ [l]) else .sub sid t ls
  | .leaf x => .leaf x

/-- Model of `add_child` on the container chosen by `get_subtopic_node`:
append the leaf to the topic node's children, or to the leaf list of the
(unique) subtopic child with the given title. -/
def addLeaf (cs : List Child) (target : Option String) (l : Leaf) : List Child :=
  match target with
  | none => cs ++ [.leaf l]
  | some lv => cs.map (bumpSub lv l)

/-- The display title of a document leaf (lines 260-268): the term is
prefixed unless it is the `"All"` sentinel. -/
def docTitle (r : Resource) : String :=
  (if r.term ≠ "All" then r.term ++ " - " else "") ++ r.name

def buildDocLeaf (k : String) (r : Resource) : Leaf :=
  .doc k ("chefdata/compressed/" ++ k ++ ".pdf") (docTitle r)

/-- A video leaf (lines 277-297): the title is the bare resource name. -/
def buildVideoLeaf (k : String) (r : Resource) : Leaf :=
  .video k r.url r.name

/-- The per-topic mutable state of the `construct_channel` resource loop:
the topic node's children, the `self.subtopics` keys, and the global
`used_resorces` list. -/
structure InnerState where
  children : List Child
  subs : List String
  used : List String
deriving Repr, DecidableEq

/-- One iteration of the resource loop (lines 244-297): skip keys already
attached anywhere in the tree, otherwise mark the key used and attach
the document variant when the key is in the pdf pool, else the video
variant when it is in the video pool, else nothing. -/
def processResource (usingSubs : Bool) (pdfs videos : List (String × Resource))
    (st : InnerState) (k : String) : InnerState :=
  if k ∈ st.used then st
  else
    let used' := st.used ++ [k]
    match dictGet pdfs k with
    | some r =>
      let out := get_subtopic_node usingSubs st.children st.subs r
      ⟨addLeaf out.1 out.2.2 (buildDocLeaf k r), out.2.1, used'⟩
    | none =>
      match dictGet videos k with
      | some r =>
        let out := get_subtopic_node usingSubs st.children st.subs r
        ⟨addLeaf out.1 out.2.2 (buildVideoLeaf k r), out.2.1, used'⟩
      | none => ⟨st.children, st.subs, used'⟩

/-- The resource loop of one topic, folding `processResource` over the
topic's ordered key list. -/
def processLoop (usingSubs : Bool) (pdfs videos : List (String × Resource))
    (st : InnerState) (ks : List String) : InnerState :=
  ks.foldl (fun s k => processResource usingSubs pdfs videos s k) st

/-- One iteration of the topic loop (lines 234-299): fresh subtopic
dictionary, the one-time grade-delineation decision
`"Grade" in self.topics[topic][0]` taken on the topic's first registered
identity key, then the resource loop.  (Topic groups built by `crawl`
are never empty, so the `headD` default is never read on pipeline
states.) -/
def processTopic (pdfs videos : List (String × Resource)) (used : List String)
    (topic : String) (ks : List String) : TNode × List String :=
  let usingSubs := strContains (ks.headD "") "Grade"
  let fin := processLoop usingSubs pdfs videos ⟨[], [], used⟩ ks
  (⟨underscore topic ++ "_id", topic, fin.children⟩, fin.used)

def constructAux (pdfs videos : List (String × Resource)) (used : List String) :
    List (String × List String) → List TNode
  | [] => []
  | tp :: rest =>
    let out := processTopic pdfs videos used tp.1 tp.2
    out.1 :: constructAux pdfs videos out.2 rest

/-- The method `construct_channel` (lines 231-301): process the topics in discovery
order with an initially empty `used_resorces` list; the channel is the
list of topic nodes in attachment order. -/
def construct_channel (topics : List (String × List String))
    (pdfs videos : List (String × Resource)) : List TNode :=
  constructAux pdfs videos [] topics

/-! ## Dictionary lemmas -/

theorem dictGet_map_replace {α : Type} (d : List (String × α)) (k : String) (v : α)
    (h : (dictGet d k).isSome) :
    dictGet (d.map (fun p => if p.1 = k then (k, v) else p)) k = some v := by
  induction d with
  | nil => simp [dictGet] at h
  | cons p rest ih =>
    by_cases hp : p.1 = k
    · simp [dictGet, hp]
    · simp only [dictGet, hp, if_false] at h
      simpa [dictGet, hp] using ih h

theorem dictGet_append_self {α : Type} (d : List (String × α)) (k : String) (v : α)
    (h : dictGet d k = none) :
    dictGet (d ++ [(k, v)]) k = some v := by
  induction d with
  | nil => simp [dictGet]
  | cons p rest ih =>
    by_cases hp : p.1 = k
    · simp [dictGet, hp] at h
    · simp only [dictGet, hp, if_false] at h
      simpa [dictGet, hp] using ih h

theorem dictGet_upsert_self {α : Type} (d : List (String × α)) (k : String) (v : α) :
    dictGet (dictUpsert d k v) k = some v := by
  unfold dictUpsert
  by_cases h : (dictGet d k).isSome
  · simpa [h] using dictGet_map_replace d k v h
  · have h' : dictGet d k = none := by
      cases hd : dictGet d k
      · rfl
      · simp [hd] at h
    simpa [h] using dictGet_append_self d k v h'

theorem dictGet_map_replace_ne {α : Type} (d : List (String × α)) (k : String) (v : α)
    (k' : String) (h : k' ≠ k) :
    dictGet (d.map (fun p => if p.1 = k then (k, v) else p)) k' = dictGet d k' := by
  induction d with
  | nil => simp [dictGet]
  | cons p rest ih =>
    by_cases hpk : p.1 = k
    · have h1 : k ≠ k' := Ne.symm h
      have h2 : p.1 ≠ k' := by rw [hpk]; exact h1
      simp [dictGet, hpk, h1, h2, ih]
    · by_cases hpk' : p.1 = k'
      · simp [dictGet, hpk, hpk', h]
      · simp [dictGet, hpk, hpk', ih]

theorem dictGet_append_ne {α : Type} (d : List (String × α)) (k : String) (v : α)
    (k' : String) (h : k' ≠ k) :
    dictGet (d ++ [(k, v)]) k' = dictGet d k' := by
  induction d with
  | nil => simp [dictGet, Ne.symm h]
  | cons p rest ih =>
    by_cases hpk' : p.1 = k'
    · simp [dictGet, hpk']
    · simp [dictGet, hpk', ih]

theorem dictGet_upsert_ne {α : Type} (d : List (String × α)) (k : String) (v : α)
    (k' : String) (h : k' ≠ k) :
    dictGet (dictUpsert d k v) k' = dictGet d k' := by
  unfold dictUpsert
  by_cases hp : (dictGet d k).isSome
  · simpa [hp] using dictGet_map_replace_ne d k v k' h
  · simpa [hp] using dictGet_append_ne d k v k' h

theorem dictGet_upsert_isSome {α : Type} (d : List (String × α)) (k : String) (v : α)
    (p : String) (h : (dictGet d p).isSome) :
    (dictGet (dictUpsert d k v) p).isSome := by
  by_cases hp : p = k
  · subst hp; simp [dictGet_upsert_self]
  · rwa [dictGet_upsert_ne d k v p hp]

theorem dictGet_none_iff_not_mem_keys {α : Type} (d : List (String × α)) (k : String) :
    dictGet d k = none ↔ k ∉ d.map Prod.fst := by
  induction d with
  | nil => simp [dictGet]
  | cons p rest ih =>
    by_cases hp : p.1 = k
    · simp [dictGet, hp]
    · simp only [dictGet, hp, if_false, List.map_cons, List.mem_cons]
      rw [ih]
      constructor
      · intro hnm hmem
        rcases hmem with hmem | hmem
        · exact hp hmem.symm
        · exact hnm hmem
      · intro hnm hmem
        exact hnm (Or.inr hmem)

theorem dictUpsert_keys_present {α : Type} (d : List (String × α)) (k : String) (v : α)
    (h : (dictGet d k).isSome) :
    (dictUpsert d k v).map Prod.fst = d.map Prod.fst := by
  unfold dictUpsert
  simp only [h, if_true, List.map_map]
  apply List.map_congr_left
  intro p _
  by_cases hp : p.1 = k
  · simp [hp]
  · simp [hp]

theorem dictUpsert_keys_absent {α : Type} (d : List (String × α)) (k : String) (v : α)
    (h : dictGet d k = none) :
    (dictUpsert d k v).map Prod.fst = d.map Prod.fst ++ [k] := by
  unfold dictUpsert
  simp [h]

theorem dictUpsert_keys_nodup {α : Type} (d : List (String × α)) (k : String) (v : α)
    (h : (d.map Prod.fst).Nodup) :
    ((dictUpsert d k v).map Prod.fst).Nodup := by
  cases hd : dictGet d k with
  | none =>
    rw [dictUpsert_keys_absent d k v hd]
    have hk : k ∉ d.map Prod.fst := (dictGet_none_iff_not_mem_keys d k).mp hd
    rw [List.nodup_append]
    refine ⟨h, List.nodup_singleton k, ?_⟩
    intro a ha hb
    rw [List.mem_singleton] at hb
    subst hb
    exact hk ha
  | some w =>
    rw [dictUpsert_keys_present d k v (by simp [hd])]
    exact h

theorem dictUpsert_forall {α : Type} (P : String × α → Prop) (d : List (String × α))
    (k : String) (v : α) (hd : ∀ q ∈ d, P q) (hkv : P (k, v)) :
    ∀ q ∈ dictUpsert d k v, P q := by
  intro q hq
  unfold dictUpsert at hq
  by_cases h : (dictGet d k).isSome
  · simp only [h, if_true, List.mem_map] at hq
    obtain ⟨p, hp, rfl⟩ := hq
    by_cases hpk : p.1 = k
    · simpa [hpk] using hkv
    · simpa [hpk] using hd p hp
  · simp only [h, if_false] at hq
    rcases List.mem_append.mp hq with hq | hq
    · exact hd q hq
    · have hqe : q = (k, v) := by simpa using hq
      rw [hqe]; exact hkv

theorem dictGet_isSome_of_mem_keys {α : Type} (d : List (String × α)) (k : String)
    (h : k ∈ d.map Prod.fst) : (dictGet d k).isSome := by
  cases hd : dictGet d k with
  | none => exact absurd h ((dictGet_none_iff_not_mem_keys d k).mp hd)
  | some w => simp

/-! ## Crawl lemmas -/

/-- The registration body either only appends the url (exclusion skip)
or appends the url, registers the topic-group entry and overwrites the
resource slot at the record's identity key. -/
theorem crawlRegister_cases (isLink : Bool) (st : CrawlState) (link : Elem)
    (url : String) (st' : CrawlState) (h : crawlRegister isLink st link url = .ok st') :
    st' = { st with urls := st.urls ++ [url] } ∨
      ∃ r : Resource,
        st' = { topics := topicsAdd st.topics r.topic (keyFormula r)
                resources := dictUpsert st.resources (keyFormula r) r
                urls := st.urls ++ [url]
                level := some r.level } := by
  simp only [crawlRegister] at h
  cases hn : adjustedName isLink st.level (pyStrip link.cat1) (pyStrip link.label) with
  | error e => simp [hn] at h
  | ok name₁ =>
    simp only [hn] at h
    split at h
    · left; cases h; rfl
    · right
      cases h
      exact ⟨⟨name₁, if pyStrip link.cat1 = "Maths Workbooks" then "Maths" else pyStrip link.cat1,
        pyStrip link.cat2, pyStrip link.cat3, url⟩, rfl⟩

/-- A successful crawl iteration either leaves the resource mapping
unchanged or overwrites the slot at the registered record's identity
key with that record. -/
theorem crawlStep_resources (isLink : Bool) (st : CrawlState) (link : Elem)
    (st' : CrawlState) (h : crawlStep isLink st link = .ok st') :
    st'.resources = st.resources ∨
      ∃ r : Resource, st'.resources = dictUpsert st.resources (keyFormula r) r := by
  unfold crawlStep at h
  cases hres : resolveUrl isLink link with
  | error e => simp [hres] at h
  | ok url =>
    simp only [hres] at h
    split at h
    · left; cases h; rfl
    · split at h
      · left; cases h; rfl
      · rcases crawlRegister_cases isLink st link url st' h with he | ⟨r, he⟩
        · left; rw [he]
        · right; exact ⟨r, by rw [he]⟩

/-- A successful crawl iteration never removes a url from the seen list. -/
theorem crawlStep_urls_mono (isLink : Bool) (st : CrawlState) (link : Elem)
    (st' : CrawlState) (h : crawlStep isLink st link = .ok st') :
    ∀ u ∈ st.urls, u ∈ st'.urls := by
  unfold crawlStep at h
  cases hres : resolveUrl isLink link with
  | error e => simp [hres] at h
  | ok url =>
    simp only [hres] at h
    split at h
    · cases h; exact fun u hu => hu
    · split at h
      · cases h; exact fun u hu => hu
      · rcases crawlRegister_cases isLink st link url st' h with he | ⟨r, he⟩
        · rw [he]; intro u hu; simp [List.mem_append, hu]
        · rw [he]; intro u hu; simp [List.mem_append, hu]

theorem crawl_urls_mono (isLink : Bool) (ls : List Elem) (st st' : CrawlState)
    (h : crawl isLink ls st = .ok st') : ∀ u ∈ st.urls, u ∈ st'.urls := by
  induction ls generalizing st with
  | nil => simp only [crawl] at h; cases h; exact fun u hu => hu
  | cons l rest ih =>
    simp only [crawl] at h
    cases hstep : crawlStep isLink st l with
    | error e => rw [hstep] at h; exact absurd h (by simp)
    | ok st₁ =>
      rw [hstep] at h
      exact fun u hu => ih st₁ h u (crawlStep_urls_mono isLink st l st₁ hstep u hu)

/-- An element whose resolved url has already been seen is skipped
without any state change. -/
theorem crawlStep_dup_skip (isLink : Bool) (st : CrawlState) (link : Elem)
    (u : String) (hres : resolveUrl isLink link = .ok u) (hmem : u ∈ st.urls) :
    crawlStep isLink st link = .ok st := by
  unfold crawlStep
  simp only [hres]
  by_cases hmp : isLink = false ∧ lastN u 3 ≠ "mp4"
  · rw [if_pos hmp]
  · rw [if_neg hmp, if_pos hmem]

/-- The identity keys of the resource mapping stay duplicate-free along a
crawl. -/
theorem crawlStep_keys_nodup (isLink : Bool) (st : CrawlState) (link : Elem)
    (st' : CrawlState) (h : crawlStep isLink st link = .ok st')
    (hnd : (st.resources.map Prod.fst).Nodup) :
    (st'.resources.map Prod.fst).Nodup := by
  rcases crawlStep_resources isLink st link st' h with he | ⟨r, he⟩
  · rwa [he]
  · rw [he]; exact dictUpsert_keys_nodup _ _ _ hnd

theorem crawl_keys_nodup (isLink : Bool) (ls : List Elem) (st st' : CrawlState)
    (h : crawl isLink ls st = .ok st') (hnd : (st.resources.map Prod.fst).Nodup) :
    (st'.resources.map Prod.fst).Nodup := by
  induction ls generalizing st with
  | nil => simp only [crawl] at h; cases h; exact hnd
  | cons l rest ih =>
    simp only [crawl] at h
    cases hstep : crawlStep isLink st l with
    | error e => rw [hstep] at h; exact absurd h (by simp)
    | ok st₁ =>
      rw [hstep] at h
      exact ih st₁ h (crawlStep_keys_nodup isLink st l st₁ hstep hnd)

/-- Every entry of the resource mapping is keyed by the key formula of
its own record. -/
theorem crawl_key_formula (isLink : Bool) (ls : List Elem) (st st' : CrawlState)
    (h : crawl isLink ls st = .ok st')
    (hin : ∀ p ∈ st.resources, p.1 = keyFormula p.2) :
    ∀ p ∈ st'.resources, p.1 = keyFormula p.2 := by
  induction ls generalizing st with
  | nil => simp only [crawl] at h; cases h; exact hin
  | cons l rest ih =>
    simp only [crawl] at h
    cases hstep : crawlStep isLink st l with
    | error e => rw [hstep] at h; exact absurd h (by simp)
    | ok st₁ =>
      rw [hstep] at h
      refine ih st₁ h ?_
      rcases crawlStep_resources isLink st l st₁ hstep with he | ⟨r, he⟩
      · rwa [he]
      · rw [he]
        exact dictUpsert_forall _ _ _ _ hin rfl

/-! ## Claim C1: in-pass deduplication by identity key -/

def claim1elemA : Elem := ⟨"/a.pdf", "", "N", "T", "L", "All"⟩

def claim1elemB : Elem := ⟨"/b.pdf", "", "N", "T", "L", "All"⟩

/-- Claim C1 is false as stated: two link elements with identical
`data-label`/`data-cat1`/`data-cat2`/`data-cat3` but different hrefs
produce the same identity key `T-L-All-N_id`, and the record surviving
in the output mapping is the one of the *second* element (url `/b.pdf`),
not of the first-seen element (url `/a.pdf`, as witnessed by the
one-element run). -/
theorem claim1_counterexample :
    (crawlPass true [] [claim1elemA, claim1elemB]).toOption.map
        (fun st => (dictGet st.resources "T-L-All-N_id").map Resource.url)
      = some (some "https://fundawande.org/b.pdf") ∧
    (crawlPass true [] [claim1elemA]).toOption.map
        (fun st => (dictGet st.resources "T-L-All-N_id").map Resource.url)
      = some (some "https://fundawande.org/a.pdf") ∧
    "https://fundawande.org/b.pdf" ≠ "https://fundawande.org/a.pdf" := by
  decide

/-- Claim C1, amended: within a crawl pass the output mapping holds at
most one record per identity key, but when several elements produce the
same key the surviving record is that of the *last-seen* element — a
later registration of key `k` with record `r` overwrites the mapping
slot at `k` (the seen-url list, not the identity key, is the explicit
in-pass dedup check). -/
theorem claim1_amended_last_seen_wins (isLink : Bool)
    (topics₀ : List (String × List String)) (ls : List Elem) (e : Elem)
    (stm st' : CrawlState) (k : String) (r : Resource)
    (h1 : crawlPass isLink topics₀ ls = .ok stm)
    (h2 : crawlStep isLink stm e = .ok st')
    (h3 : st'.resources = dictUpsert stm.resources k r) :
    dictGet st'.resources k = some r ∧ (st'.resources.map Prod.fst).Nodup := by
  have h1' : crawl isLink ls
      { topics := topics₀, resources := [], urls := [], level := none } = .ok stm := h1
  constructor
  · rw [h3]; exact dictGet_upsert_self _ _ _
  · exact crawlStep_keys_nodup isLink stm e st' h2
      (crawl_keys_nodup isLink ls _ stm h1' (by simp))

def claim1stm : CrawlState :=
  (crawlPass true [] [claim1elemA]).toOption.getD ⟨[], [], [], none⟩

def claim1stFinal : CrawlState :=
  (crawlStep true claim1stm claim1elemB).toOption.getD ⟨[], [], [], none⟩

def claim1rec : Resource := ⟨"N", "T", "L", "All", "https://fundawande.org/b.pdf"⟩

theorem claim1_amended_witness :
    dictGet claim1stFinal.resources "T-L-All-N_id" = some claim1rec ∧
    (claim1stFinal.resources.map Prod.fst).Nodup :=
  claim1_amended_last_seen_wins true [] [claim1elemA] claim1elemB claim1stm
    claim1stFinal "T-L-All-N_id" claim1rec (by decide) (by decide) (by decide)

/-! ## Claim C4: the Reading-for-Meaning level prefix -/

def claim4first : Elem :=
  ⟨"", mkOnclick "/v1.mp4", "Intro", "Reading for Meaning Course", "Level 1", "All"⟩

def claim4a : Elem := ⟨"", mkOnclick "/v1.mp4", "Vid A", "Other", "Grade 5", "All"⟩

def claim4b : Elem :=
  ⟨"", mkOnclick "/v2.mp4", "Intro", "Reading for Meaning Course", "Level 2", "All"⟩

/-- Claim C4 describes the intended behaviour (also stated by the
comment at line 144 of the source), but line 147 reads the loop-local
variable `level` *before* this iteration's assignment at line 157.  The
code therefore crashes with an `UnboundLocalError` when the first
trigger element of the pass belongs to the leveled course, and otherwise
prefixes the *previous* element's level: here the second element (own
level `"Level 2"`) is stored with name `"Grade 5: Intro"`, the prefix
being the first element's level. -/
theorem claim4_code_bug_eval :
    crawlPass false [] [claim4first] = .error .unboundLevel ∧
    (crawlPass false [] [claim4a, claim4b]).toOption.map
        (fun st => st.resources.map (fun p => p.2.name))
      = some ["Vid A", "Grade 5: Intro"] ∧
    pyStrip claim4b.cat2 = "Level 2" ∧
    "Grade 5: Intro" ≠ "Level 2: Intro" := by
  decide

/-! ## Claim C5: the identity-key format -/

def claim5doc : Elem := ⟨"/x.pdf", "", "N", "T", "L", "All"⟩

def claim5vid : Elem := ⟨"", mkOnclick "/x.mp4", "N", "T", "L", "All"⟩

/-- Claim C5 is false in its suffix part: the key suffix `_id` is the
same for both crawl passes, so a document and a video with identical
topic, level, term and name receive the *same* identity key — here
`T-L-All-N_id` ends up present in both pools with field-identical
records. -/
theorem claim5_counterexample :
    (pre_run [claim5doc] [claim5vid]).toOption.map
        (fun o =>
          ((dictGet o.pdfs "T-L-All-N_id").map (fun r => (r.topic, r.level, r.term, r.name)),
           (dictGet o.videos "T-L-All-N_id").map (fun r => (r.topic, r.level, r.term, r.name))))
      = some (some ("T", "L", "All", "N"), some ("T", "L", "All", "N")) := by
  decide

/-- Claim C5, amended: every key of either pool equals its record's
topic, level, term and name joined with `"-"` followed by the fixed
suffix `"_id"` — identical for both resource types — with spaces
replaced by underscores; consequently a document and a video with
identical topic, level, term and name yield the *same* identity key. -/
theorem claim5_amended_key_format (linksA linksB : List Elem) (out : PreRunOut)
    (h : pre_run linksA linksB = .ok out) :
    (∀ p ∈ out.pdfs, p.1 = keyFormula p.2) ∧
    (∀ p ∈ out.videos, p.1 = keyFormula p.2) ∧
    (∀ p ∈ out.pdfs, ∀ q ∈ out.videos,
      p.2.topic = q.2.topic → p.2.level = q.2.level → p.2.term = q.2.term →
      p.2.name = q.2.name → p.1 = q.1) := by
  unfold pre_run at h
  cases h1 : crawlPass true [] linksA with
  | error e => simp [h1] at h
  | ok st₁ =>
    simp only [h1] at h
    cases h2 : crawlPass false st₁.topics linksB with
    | error e => rw [h2] at h; exact absurd h (by simp)
    | ok st₂ =>
      rw [h2] at h
      cases h
      have hA : ∀ p ∈ st₁.resources, p.1 = keyFormula p.2 :=
        crawl_key_formula true linksA _ st₁ h1 (by simp)
      have hB : ∀ p ∈ st₂.resources, p.1 = keyFormula p.2 :=
        crawl_key_formula false linksB _ st₂ h2 (by simp)
      refine ⟨hA, hB, ?_⟩
      intro p hp q hq e1 e2 e3 e4
      rw [hA p hp, hB q hq]
      unfold keyFormula
      rw [e1, e2, e3, e4]

def claim5out : PreRunOut :=
  (pre_run [claim5doc] [claim5vid]).toOption.getD ⟨[], [], []⟩

def claim5recDoc : Resource := ⟨"N", "T", "L", "All", "https://fundawande.org/x.pdf"⟩

theorem claim5_amended_witness :
    ("T-L-All-N_id", claim5recDoc) ∈ claim5out.pdfs ∧
    "T-L-All-N_id" = keyFormula claim5recDoc :=
  ⟨by decide,
   (claim5_amended_key_format [claim5doc] [claim5vid] claim5out (by decide)).1
     ("T-L-All-N_id", claim5recDoc) (by decide)⟩

/-! ## Claim C10: the seen-url list is extended before the exclusion filter -/

/-- Claim C10 holds: an element that passes the url checks has its
resolved url appended to the seen list *before* the exclusion filter
discards it (line 140 precedes lines 148-154), so the step of an
excluded element returns the state with only the url added; any later
element of the pass resolving to the same url is then skipped as a
duplicate without registering anything, whatever its topic. -/
theorem claim10_url_recorded_before_exclusion (isLink : Bool) (st₁ : CrawlState)
    (e₁ : Elem) (u : String)
    (h2 : resolveUrl isLink e₁ = .ok u)
    (h3 : isLink = true ∨ lastN u 3 = "mp4")
    (h4 : u ∉ st₁.urls)
    (h5 : excludedTopic (pyStrip e₁.cat1) = true) :
    crawlStep isLink st₁ e₁ = .ok { st₁ with urls := st₁.urls ++ [u] } ∧
    (∀ ls₂ st₃, crawl isLink ls₂ { st₁ with urls := st₁.urls ++ [u] } = .ok st₃ →
      ∀ e₂, resolveUrl isLink e₂ = .ok u → crawlStep isLink st₃ e₂ = .ok st₃) := by
  have hnotR : pyStrip e₁.cat1 ≠ "Reading for Meaning Course" := by
    intro hr
    rw [hr] at h5
    have hfalse : excludedTopic "Reading for Meaning Course" = false := by decide
    rw [hfalse] at h5
    cases h5
  constructor
  · unfold crawlStep
    simp only [h2]
    have hg1 : ¬(isLink = false ∧ lastN u 3 ≠ "mp4") := by
      rcases h3 with h3 | h3
      · intro hand; rw [h3] at hand; cases hand.1
      · intro hand; exact hand.2 h3
    rw [if_neg hg1, if_neg h4]
    have hadj : adjustedName isLink st₁.level (pyStrip e₁.cat1) (pyStrip e₁.label)
        = .ok (pyStrip e₁.label) := by
      unfold adjustedName
      rw [if_neg]
      intro hand
      exact hnotR hand.1
    simp only [crawlRegister, hadj]
    rw [if_pos h5]
  · intro ls₂ st₃ hc e₂ hres2
    have hu : u ∈ ({ st₁ with urls := st₁.urls ++ [u] } : CrawlState).urls := by
      simp
    have hu3 : u ∈ st₃.urls := crawl_urls_mono isLink ls₂ _ st₃ hc u hu
    exact crawlStep_dup_skip isLink st₃ e₂ u hres2 hu3

def claim10e1 : Elem := ⟨"/p.pdf", "", "P", "Phonics things", "L", "All"⟩

def claim10e2 : Elem := ⟨"/p.pdf", "", "Q", "Clean", "L", "All"⟩

def claim10st0 : CrawlState := ⟨[], [], [], none⟩

def claim10st2 : CrawlState :=
  { claim10st0 with urls := claim10st0.urls ++ ["https://fundawande.org/p.pdf"] }

theorem claim10_witness :
    crawlStep true claim10st0 claim10e1 = .ok claim10st2 ∧
    crawlStep true claim10st2 claim10e2 = .ok claim10st2 := by
  have h := claim10_url_recorded_before_exclusion true claim10st0
    claim10e1 "https://fundawande.org/p.pdf" (by decide) (Or.inl rfl)
    (by decide) (by decide)
  exact ⟨h.1, h.2 [] claim10st2 rfl claim10e2 (by decide)⟩

/-! ## Claim C7: retry exhaustion of the fetcher -/

def isAttempt : FetchEvent → Bool
  | .attempt _ => true
  | .sleep _ => false

theorem requestLoop_retry (transport : Nat → TransportOutcome) (rc ai : Nat)
    (tr : List FetchEvent)
    (hf : transport ai = .connError ∨ transport ai = .readTimeout)
    (hlt : rc + 1 < 5) :
    requestLoop transport rc ai tr =
      requestLoop transport (rc + 1) (ai + 1) (tr ++ [.attempt ai, .sleep (rc + 1)]) := by
  rcases hf with hf | hf <;>
  · conv_lhs => unfold requestLoop
    simp only [hf]
    rw [dif_neg (by omega)]

theorem requestLoop_give_up (transport : Nat → TransportOutcome) (rc ai : Nat)
    (tr : List FetchEvent)
    (hf : transport ai = .connError ∨ transport ai = .readTimeout)
    (hge : 5 ≤ rc + 1) :
    requestLoop transport rc ai tr = (tr ++ [.attempt ai, .sleep (rc + 1)], none) := by
  rcases hf with hf | hf <;>
  · conv_lhs => unfold requestLoop
    simp only [hf]
    rw [dif_pos (by omega)]

/-- Claim C7 holds: when every attempt fails with a connection or
read-timeout failure, `make_request` issues exactly 5 attempts, sleeps
`n` units between attempt `n` and attempt `n+1` (delays 1,2,3,4 — plus a
final sleep of 5 after the last attempt), and returns `none` instead of
raising. -/
theorem claim7_retry_exhaustion (transport : Nat → TransportOutcome)
    (h : ∀ n, transport n = .connError ∨ transport n = .readTimeout) :
    make_request transport =
      ([.attempt 0, .sleep 1, .attempt 1, .sleep 2, .attempt 2, .sleep 3,
        .attempt 3, .sleep 4, .attempt 4, .sleep 5], none) ∧
    (make_request transport).1.countP isAttempt = 5 := by
  have hm : make_request transport =
      ([.attempt 0, .sleep 1, .attempt 1, .sleep 2, .attempt 2, .sleep 3,
        .attempt 3, .sleep 4, .attempt 4, .sleep 5], none) := by
    unfold make_request
    rw [requestLoop_retry transport 0 0 [] (h 0) (by omega)]
    rw [requestLoop_retry transport 1 1 _ (h 1) (by omega)]
    rw [requestLoop_retry transport 2 2 _ (h 2) (by omega)]
    rw [requestLoop_retry transport 3 3 _ (h 3) (by omega)]
    rw [requestLoop_give_up transport 4 4 _ (h 4) (by omega)]
    rfl
  exact ⟨hm, by rw [hm]; decide⟩

theorem claim7_witness :
    make_request (fun _ => .connError) =
      ([.attempt 0, .sleep 1, .attempt 1, .sleep 2, .attempt 2, .sleep 3,
        .attempt 3, .sleep 4, .attempt 4, .sleep 5], none) ∧
    (make_request (fun _ => .connError)).1.countP isAttempt = 5 :=
  claim7_retry_exhaustion (fun _ => .connError) (fun _ => Or.inl rfl)

/-! ## Claim C8: the 15 MiB size-gate boundary -/

/-- Claim C8 holds: with no compressed output present and the raw bytes
cached, a document of exactly `SIZE_LIMIT` bytes is copied verbatim to
the compressed path with no compression event, while one of
`SIZE_LIMIT + 1` bytes is routed through the compression transform. -/
theorem claim8_size_gate_boundary (remote : String → List Nat)
    (compressPdf : List Nat → Option (List Nat)) (fs : FS)
    (events : List GateEvent) (k : String) (r : Resource) (raw out : List Nat)
    (hc : dictGet fs (compressedPath k) = none)
    (hp : dictGet fs (pdfPath k) = some raw) :
    (raw.length = SIZE_LIMIT →
      gateStep remote compressPdf (fs, events) (k, r) =
        .ok (dictUpsert fs (compressedPath k) raw, events)) ∧
    (raw.length = SIZE_LIMIT + 1 → compressPdf raw = some out →
      gateStep remote compressPdf (fs, events) (k, r) =
        .ok (dictUpsert fs (compressedPath k) out, events ++ [.compress k])) := by
  have hre : rawEnsureFS remote fs k r = fs := by
    unfold rawEnsureFS; rw [if_pos (by rw [hp]; rfl)]
  have hree : rawEnsureEvents fs events k = events := by
    unfold rawEnsureEvents; rw [if_pos (by rw [hp]; rfl)]
  constructor
  · intro hlen
    simp only [gateStep, hc, hre, hree, hp, Option.isSome_none, Option.isSome_some,
      Bool.false_eq_true, if_false]
    rw [if_neg (by omega)]
  · intro hlen hcp
    simp only [gateStep, hc, hre, hree, hp, Option.isSome_none, Option.isSome_some,
      Bool.false_eq_true, if_false]
    rw [if_pos (by omega)]
    simp only [hcp]

def claim8raw : List Nat := List.replicate SIZE_LIMIT 0

def claim8fs : FS := [(pdfPath "k", claim8raw)]

theorem claim8_witness :
    dictGet claim8fs (compressedPath "k") = none ∧
    dictGet claim8fs (pdfPath "k") = some claim8raw ∧
    gateStep (fun _ => []) (fun _ => none) (claim8fs, []) ("k", ⟨"N", "T", "L", "All", "u"⟩) =
      .ok (dictUpsert claim8fs (compressedPath "k") claim8raw, []) := by
  have hc : dictGet claim8fs (compressedPath "k") = none := by
    simp [claim8fs, dictGet, pdfPath, compressedPath]
  have hp : dictGet claim8fs (pdfPath "k") = some claim8raw := by
    rw [claim8fs, dictGet, if_pos rfl]
  exact ⟨hc, hp,
    (claim8_size_gate_boundary (fun _ => []) (fun _ => none) claim8fs [] "k"
        ⟨"N", "T", "L", "All", "u"⟩ claim8raw [] hc hp).1
      (by rw [claim8raw, List.length_replicate])⟩

/-! ## Claim C9: idempotence of the transcode gate -/

theorem rawEnsureFS_mono (remote : String → List Nat) (fs : FS) (k : String)
    (r : Resource) (p : String) (hp : (dictGet fs p).isSome) :
    (dictGet (rawEnsureFS remote fs k r) p).isSome := by
  unfold rawEnsureFS
  split
  · exact hp
  · exact dictGet_upsert_isSome fs (pdfPath k) (remote r.url) p hp

theorem rawEnsureFS_pdf (remote : String → List Nat) (fs : FS) (k : String)
    (r : Resource) : (dictGet (rawEnsureFS remote fs k r) (pdfPath k)).isSome := by
  unfold rawEnsureFS
  by_cases h : (dictGet fs (pdfPath k)).isSome
  · rw [if_pos h]; exact h
  · rw [if_neg h, dictGet_upsert_self]; rfl

/-- A gate iteration whose compressed output is already on disk is a
no-op: no download, no compression, no filesystem change. -/
theorem gateStep_skip (remote : String → List Nat)
    (compressPdf : List Nat → Option (List Nat)) (fs : FS) (ev : List GateEvent)
    (k : String) (r : Resource)
    (hcp : (dictGet fs (compressedPath k)).isSome) :
    gateStep remote compressPdf (fs, ev) (k, r) = .ok (fs, ev) := by
  simp only [gateStep]
  rw [if_pos hcp]

/-- A successful gate iteration only adds filesystem entries, and leaves
the compressed output of its own key present. -/
theorem gateStep_ok_mono (remote : String → List Nat)
    (compressPdf : List Nat → Option (List Nat)) (fs : FS) (ev : List GateEvent)
    (k : String) (r : Resource) (fs' : FS) (ev' : List GateEvent)
    (h : gateStep remote compressPdf (fs, ev) (k, r) = .ok (fs', ev')) :
    (∀ p, (dictGet fs p).isSome → (dictGet fs' p).isSome) ∧
    (dictGet fs' (compressedPath k)).isSome := by
  simp only [gateStep] at h
  by_cases hcp : (dictGet fs (compressedPath k)).isSome
  · rw [if_pos hcp] at h
    cases h
    exact ⟨fun p hp => hp, hcp⟩
  · rw [if_neg hcp] at h
    cases hm : dictGet (rawEnsureFS remote fs k r) (pdfPath k) with
    | none => rw [hm] at h; exact absurd h (by simp)
    | some raw =>
      simp only [hm] at h
      split at h
      · cases hcpr : compressPdf raw with
        | none => rw [hcpr] at h; exact absurd h (by simp)
        | some out =>
          rw [hcpr] at h
          cases h
          refine ⟨fun p hp => ?_, ?_⟩
          · exact dictGet_upsert_isSome _ _ _ p (rawEnsureFS_mono remote fs k r p hp)
          · rw [dictGet_upsert_self]; rfl
      · cases h
        refine ⟨fun p hp => ?_, ?_⟩
        · exact dictGet_upsert_isSome _ _ _ p (rawEnsureFS_mono remote fs k r p hp)
        · rw [dictGet_upsert_self]; rfl

theorem gateRun_ok_mono (remote : String → List Nat)
    (compressPdf : List Nat → Option (List Nat)) (pdfs : List (String × Resource))
    (fs : FS) (ev : List GateEvent) (fs' : FS) (ev' : List GateEvent)
    (h : gateRun remote compressPdf pdfs (fs, ev) = .ok (fs', ev')) :
    (∀ p, (dictGet fs p).isSome → (dictGet fs' p).isSome) ∧
    (∀ kr ∈ pdfs, (dictGet fs' (compressedPath kr.1)).isSome) := by
  induction pdfs generalizing fs ev with
  | nil =>
    simp only [gateRun] at h
    cases h
    exact ⟨fun p hp => hp, by simp⟩
  | cons kr rest ih =>
    simp only [gateRun] at h
    cases hstep : gateStep remote compressPdf (fs, ev) kr with
    | error e => rw [hstep] at h; exact absurd h (by simp)
    | ok st₁ =>
      rw [hstep] at h
      obtain ⟨fs₁, ev₁⟩ := st₁
      have hs := gateStep_ok_mono remote compressPdf fs ev kr.1 kr.2 fs₁ ev₁ hstep
      have hr := ih fs₁ ev₁ h
      refine ⟨fun p hp => hr.1 p (hs.1 p hp), ?_⟩
      intro q hq
      rcases List.mem_cons.mp hq with hq | hq
      · subst hq; exact hr.1 _ hs.2
      · exact hr.2 q hq

/-- When every key's compressed output is already present the whole gate
run is a no-op. -/
theorem gateRun_noop (remote : String → List Nat)
    (compressPdf : List Nat → Option (List Nat)) (pdfs : List (String × Resource))
    (fs : FS) (ev : List GateEvent)
    (hall : ∀ kr ∈ pdfs, (dictGet fs (compressedPath kr.1)).isSome) :
    gateRun remote compressPdf pdfs (fs, ev) = .ok (fs, ev) := by
  induction pdfs with
  | nil => rfl
  | cons kr rest ih =>
    simp only [gateRun]
    rw [gateStep_skip remote compressPdf fs ev kr.1 kr.2
      (hall kr (List.mem_cons_self kr rest))]
    exact ih (fun q hq => hall q (List.mem_cons_of_mem kr hq))

/-- Claim C9 holds: after any successful gate run, re-running the gate
over the same pdf pool performs no download and no compression (the
event trace of the second run is empty) and leaves the filesystem
unchanged — presence of the compressed output, keyed by identity, is the
only check the gate makes. -/
theorem claim9_gate_idempotent (remote : String → List Nat)
    (compressPdf : List Nat → Option (List Nat)) (pdfs : List (String × Resource))
    (fs fs' : FS) (evs : List GateEvent)
    (h : download_and_compress_pdfs remote compressPdf pdfs fs = .ok (fs', evs)) :
    download_and_compress_pdfs remote compressPdf pdfs fs' = .ok (fs', []) := by
  unfold download_and_compress_pdfs at h ⊢
  exact gateRun_noop remote compressPdf pdfs fs' []
    (gateRun_ok_mono remote compressPdf pdfs fs [] fs' evs h).2

def claim9rec : Resource := ⟨"N", "T", "L", "All", "u"⟩

def claim9fs1 : FS := [(pdfPath "k", [0]), (compressedPath "k", [0])]

theorem claim9_witness :
    download_and_compress_pdfs (fun _ => [0]) (fun _ => none) [("k", claim9rec)]
      claim9fs1 = .ok (claim9fs1, []) :=
  claim9_gate_idempotent (fun _ => [0]) (fun _ => none) [("k", claim9rec)] []
    claim9fs1 [.download "k"] (by decide)

/-! ## Tree-assembly bookkeeping lemmas -/

theorem childrenLeaves_append (a b : List Child) :
    childrenLeaves (a ++ b) = childrenLeaves a ++ childrenLeaves b := by
  induction a with
  | nil => simp [childrenLeaves]
  | cons c cs ih => simp [childrenLeaves, ih]

theorem subTitles_append (a b : List Child) :
    subTitles (a ++ b) = subTitles a ++ subTitles b := by
  induction a with
  | nil => simp [subTitles]
  | cons c cs ih =>
    cases c with
    | sub sid t ls => simp [subTitles, ih]
    | leaf x => simp [subTitles, ih]

theorem addLeaf_none_leaves (cs : List Child) (l : Leaf) :
    childrenLeaves (addLeaf cs none l) = childrenLeaves cs ++ [l] := by
  simp [addLeaf, childrenLeaves_append, childrenLeaves, childLeaves]

theorem addLeaf_none_subTitles (cs : List Child) (l : Leaf) :
    subTitles (addLeaf cs none l) = subTitles cs := by
  simp [addLeaf, subTitles_append, subTitles]

theorem bumpSub_eq_self (lv : String) (l : Leaf) (c : Child)
    (h : ∀ sid ls, c ≠ .sub sid lv ls) : bumpSub lv l c = c := by
  cases c with
  | sub sid t ls =>
    have ht : t ≠ lv := by
      intro hh
      exact h sid ls (by rw [hh])
    simp [bumpSub, ht]
  | leaf x => rfl

theorem bumpSub_map_no_match (lv : String) (l : Leaf) (cs : List Child)
    (h : lv ∉ subTitles cs) : cs.map (bumpSub lv l) = cs := by
  induction cs with
  | nil => rfl
  | cons c rest ih =>
    cases c with
    | sub sid t ls =>
      have hne : t ≠ lv := by
        intro hh
        exact h (by rw [hh, subTitles]; exact List.mem_cons_self lv _)
      have hrest : lv ∉ subTitles rest := by
        intro hh
        exact h (by rw [subTitles]; exact List.mem_cons_of_mem t hh)
      simp [bumpSub, hne, ih hrest]
    | leaf x =>
      have hrest : lv ∉ subTitles rest := by
        intro hh
        exact h (by rw [subTitles]; exact hh)
      simp [bumpSub, ih hrest]

theorem bumpSub_subTitles (lv : String) (l : Leaf) (cs : List Child) :
    subTitles (cs.map (bumpSub lv l)) = subTitles cs := by
  induction cs with
  | nil => rfl
  | cons c rest ih =>
    cases c with
    | sub sid t ls =>
      by_cases ht : t = lv
      · simp [bumpSub, ht, subTitles, ih]
      · simp [bumpSub, ht, subTitles, ih]
    | leaf x => simp [bumpSub, subTitles, ih]

theorem addLeaf_some_subTitles (cs : List Child) (lv : String) (l : Leaf) :
    subTitles (addLeaf cs (some lv) l) = subTitles cs := by
  simp only [addLeaf]
  exact bumpSub_subTitles lv l cs

theorem addLeaf_some_perm (cs : List Child) (lv : String) (l : Leaf)
    (hnd : (subTitles cs).Nodup) (hmem : lv ∈ subTitles cs) :
    List.Perm (childrenLeaves (addLeaf cs (some lv) l)) (childrenLeaves cs ++ [l]) := by
  induction cs with
  | nil => cases hmem
  | cons c rest ih =>
    cases c with
    | sub sid t ls =>
      rw [subTitles] at hnd hmem
      by_cases ht : t = lv
      · subst ht
        have hrest : t ∉ subTitles rest := (List.nodup_cons.mp hnd).1
        simp only [addLeaf, List.map_cons, bumpSub, eq_self_iff_true, ite_true,
          bumpSub_map_no_match t l rest hrest, childrenLeaves, childLeaves]
        rw [List.append_assoc, List.append_assoc]
        exact List.Perm.append_left ls (List.perm_append_comm)
      · have hm' : lv ∈ subTitles rest := by
          rcases List.mem_cons.mp hmem with hh | hh
          · exact absurd hh.symm ht
          · exact hh
        have hnd' : (subTitles rest).Nodup := (List.nodup_cons.mp hnd).2
        simp only [addLeaf, List.map_cons, bumpSub, if_neg ht, childrenLeaves, childLeaves]
        rw [List.append_assoc]
        exact List.Perm.append_left ls (ih hnd' hm')
    | leaf x =>
      rw [subTitles] at hnd hmem
      simp only [addLeaf, List.map_cons, bumpSub, childrenLeaves, childLeaves]
      rw [List.append_assoc]
      exact List.Perm.append_left [x] (ih hnd hmem)

/-! ## The tree-assembly invariant

`Inv pdfs videos L used` relates the list `L` of all leaves attached so
far (across all finished topic nodes and the current topic's children)
to the `used_resorces` list. -/

/-- What one attached leaf must look like: a document leaf is built by
`buildDocLeaf` from its key's record in the pdf pool; a video leaf is
built by `buildVideoLeaf` from the video pool and only exists when its
key is *absent* from the pdf pool (the pdf pool is consulted first). -/
def leafSpec (pdfs videos : List (String × Resource)) : Leaf → Prop
  | .doc k p t => ∃ r, dictGet pdfs k = some r ∧ Leaf.doc k p t = buildDocLeaf k r
  | .video k p t => dictGet pdfs k = none ∧
      ∃ r, dictGet videos k = some r ∧ Leaf.video k p t = buildVideoLeaf k r

structure Inv (pdfs videos : List (String × Resource)) (L : List Leaf)
    (used : List String) : Prop where
  nodupKeys : (L.map Leaf.key).Nodup
  keySub : ∀ ℓ ∈ L, ℓ.key ∈ used
  spec : ∀ ℓ ∈ L, leafSpec pdfs videos ℓ
  complete : ∀ k ∈ used, ((dictGet pdfs k).isSome ∨ (dictGet videos k).isSome) →
    ∃ ℓ ∈ L, ℓ.key = k

theorem Inv_perm (pdfs videos : List (String × Resource)) (L L' : List Leaf)
    (used : List String) (hperm : List.Perm L L') (h : Inv pdfs videos L used) :
    Inv pdfs videos L' used := by
  refine ⟨(hperm.map Leaf.key).nodup h.nodupKeys, ?_, ?_, ?_⟩
  · intro ℓ hℓ
    exact h.keySub ℓ (hperm.mem_iff.mpr hℓ)
  · intro ℓ hℓ
    exact h.spec ℓ (hperm.mem_iff.mpr hℓ)
  · intro k hk hpool
    obtain ⟨ℓ, hℓ, hkey⟩ := h.complete k hk hpool
    exact ⟨ℓ, hperm.mem_iff.mp hℓ, hkey⟩

theorem Inv_snoc (pdfs videos : List (String × Resource)) (L : List Leaf)
    (used : List String) (ℓ : Leaf) (h : Inv pdfs videos L used)
    (hnew : ℓ.key ∉ used) (hspec : leafSpec pdfs videos ℓ) :
    Inv pdfs videos (L ++ [ℓ]) (used ++ [ℓ.key]) := by
  have hknotin : ℓ.key ∉ L.map Leaf.key := by
    intro hmem
    obtain ⟨ℓ', hℓ', hkey⟩ := List.mem_map.mp hmem
    exact hnew (hkey ▸ h.keySub ℓ' hℓ')
  refine ⟨?_, ?_, ?_, ?_⟩
  · rw [List.map_append]
    rw [List.nodup_append]
    refine ⟨h.nodupKeys, List.nodup_singleton _, ?_⟩
    intro a ha hb
    rw [List.map_singleton, List.mem_singleton] at hb
    subst hb
    exact hknotin ha
  · intro ℓ' hℓ'
    rcases List.mem_append.mp hℓ' with hh | hh
    · exact List.mem_append_left _ (h.keySub ℓ' hh)
    · rw [List.mem_singleton] at hh
      subst hh
      exact List.mem_append_right _ (List.mem_singleton_self _)
  · intro ℓ' hℓ'
    rcases List.mem_append.mp hℓ' with hh | hh
    · exact h.spec ℓ' hh
    · rw [List.mem_singleton] at hh
      subst hh
      exact hspec
  · intro k hk hpool
    rcases List.mem_append.mp hk with hh | hh
    · obtain ⟨ℓ', hℓ', hkey⟩ := h.complete k hh hpool
      exact ⟨ℓ', List.mem_append_left _ hℓ', hkey⟩
    · rw [List.mem_singleton] at hh
      subst hh
      exact ⟨ℓ, List.mem_append_right _ (List.mem_singleton_self _), rfl⟩

theorem Inv_skip (pdfs videos : List (String × Resource)) (L : List Leaf)
    (used : List String) (k : String) (h : Inv pdfs videos L used)
    (hp : dictGet pdfs k = none) (hv : dictGet videos k = none) :
    Inv pdfs videos L (used ++ [k]) := by
  refine ⟨h.nodupKeys, ?_, h.spec, ?_⟩
  · intro ℓ hℓ
    exact List.mem_append_left _ (h.keySub ℓ hℓ)
  · intro k' hk' hpool
    rcases List.mem_append.mp hk' with hh | hh
    · exact h.complete k' hh hpool
    · rw [List.mem_singleton] at hh
      subst hh
      rcases hpool with hh | hh
      · rw [hp] at hh; cases hh
      · rw [hv] at hh; cases hh

/-- The method `get_subtopic_node` changes no leaf, keeps the subtopic dictionary
in sync with the subtopic children and duplicate-free, and only ever
targets an existing subtopic. -/
theorem get_subtopic_spec (usingSubs : Bool) (cs : List Child) (subs : List String)
    (r : Resource) (hsync : subTitles cs = subs) (hnd : subs.Nodup) :
    childrenLeaves (get_subtopic_node usingSubs cs subs r).1 = childrenLeaves cs ∧
    subTitles (get_subtopic_node usingSubs cs subs r).1 =
      (get_subtopic_node usingSubs cs subs r).2.1 ∧
    (get_subtopic_node usingSubs cs subs r).2.1.Nodup ∧
    (∀ lv, (get_subtopic_node usingSubs cs subs r).2.2 = some lv →
      lv ∈ subTitles (get_subtopic_node usingSubs cs subs r).1) := by
  unfold get_subtopic_node
  by_cases hg : strContains r.level "Grade" = false
  · rw [if_pos hg]
    exact ⟨rfl, hsync, hnd, fun lv h => nomatch h⟩
  · rw [if_neg hg]
    by_cases hu : usingSubs = true
    · rw [if_pos hu]
      by_cases hm : r.level ∈ subs
      · rw [if_pos hm]
        refine ⟨rfl, hsync, hnd, ?_⟩
        intro lv h
        cases h
        rw [hsync]
        exact hm
      · rw [if_neg hm]
        refine ⟨?_, ?_, ?_, ?_⟩
        · rw [childrenLeaves_append]
          simp [childrenLeaves, childLeaves]
        · rw [subTitles_append, hsync]
          simp [subTitles]
        · rw [List.nodup_append]
          refine ⟨hnd, List.nodup_singleton _, ?_⟩
          intro a ha hb
          rw [List.mem_singleton] at hb
          subst hb
          exact hm ha
        · intro lv h
          cases h
          rw [subTitles_append, hsync]
          simp [subTitles]
    · rw [if_neg hu]
      exact ⟨rfl, hsync, hnd, fun lv h => nomatch h⟩

theorem processResource_mem (usingSubs : Bool) (pdfs videos : List (String × Resource))
    (st : InnerState) (k : String) (hk : k ∈ st.used) :
    processResource usingSubs pdfs videos st k = st := by
  simp [processResource, hk]

theorem processResource_pdf (usingSubs : Bool) (pdfs videos : List (String × Resource))
    (st : InnerState) (k : String) (r : Resource) (hk : k ∉ st.used)
    (hp : dictGet pdfs k = some r) :
    processResource usingSubs pdfs videos st k =
      ⟨addLeaf (get_subtopic_node usingSubs st.children st.subs r).1
          (get_subtopic_node usingSubs st.children st.subs r).2.2 (buildDocLeaf k r),
        (get_subtopic_node usingSubs st.children st.subs r).2.1,
        st.used ++ [k]⟩ := by
  simp [processResource, hk, hp]

theorem processResource_video (usingSubs : Bool) (pdfs videos : List (String × Resource))
    (st : InnerState) (k : String) (r : Resource) (hk : k ∉ st.used)
    (hp : dictGet pdfs k = none) (hv : dictGet videos k = some r) :
    processResource usingSubs pdfs videos st k =
      ⟨addLeaf (get_subtopic_node usingSubs st.children st.subs r).1
          (get_subtopic_node usingSubs st.children st.subs r).2.2 (buildVideoLeaf k r),
        (get_subtopic_node usingSubs st.children st.subs r).2.1,
        st.used ++ [k]⟩ := by
  simp [processResource, hk, hp, hv]

theorem processResource_none (usingSubs : Bool) (pdfs videos : List (String × Resource))
    (st : InnerState) (k : String) (hk : k ∉ st.used)
    (hp : dictGet pdfs k = none) (hv : dictGet videos k = none) :
    processResource usingSubs pdfs videos st k = ⟨st.children, st.subs, st.used ++ [k]⟩ := by
  simp [processResource, hk, hp, hv]

/-- One resource-loop iteration preserves the invariant: the subtopic
dictionary stays in sync and duplicate-free, the accumulated leaves
(outer leaves `L₀` plus the current topic's) stay governed by `Inv`,
`used_resorces` only grows, and the processed key ends up used. -/
theorem processResource_spec (usingSubs : Bool)
    (pdfs videos : List (String × Resource)) (L₀ : List Leaf) (st : InnerState)
    (k : String) (hsync : subTitles st.children = st.subs) (hnd : st.subs.Nodup)
    (hInv : Inv pdfs videos (L₀ ++ childrenLeaves st.children) st.used) :
    subTitles (processResource usingSubs pdfs videos st k).children =
      (processResource usingSubs pdfs videos st k).subs ∧
    (processResource usingSubs pdfs videos st k).subs.Nodup ∧
    Inv pdfs videos (L₀ ++ childrenLeaves (processResource usingSubs pdfs videos st k).children)
      (processResource usingSubs pdfs videos st k).used ∧
    (∀ x ∈ st.used, x ∈ (processResource usingSubs pdfs videos st k).used) ∧
    k ∈ (processResource usingSubs pdfs videos st k).used := by
  by_cases hk : k ∈ st.used
  · rw [processResource_mem usingSubs pdfs videos st k hk]
    exact ⟨hsync, hnd, hInv, fun x hx => hx, hk⟩
  · cases hp : dictGet pdfs k with
    | some r =>
      rw [processResource_pdf usingSubs pdfs videos st k r hk hp]
      obtain ⟨hleq, hsub, hndout, htgt⟩ :=
        get_subtopic_spec usingSubs st.children st.subs r hsync hnd
      have hperm : List.Perm
          (childrenLeaves (addLeaf (get_subtopic_node usingSubs st.children st.subs r).1
            (get_subtopic_node usingSubs st.children st.subs r).2.2 (buildDocLeaf k r)))
          (childrenLeaves st.children ++ [buildDocLeaf k r]) := by
        cases htarget : (get_subtopic_node usingSubs st.children st.subs r).2.2 with
        | none =>
          rw [addLeaf_none_leaves, hleq]
        | some lv =>
          have hmem := htgt lv htarget
          have hnd1 : (subTitles (get_subtopic_node usingSubs st.children st.subs r).1).Nodup := by
            rw [hsub]; exact hndout
          have := addLeaf_some_perm (get_subtopic_node usingSubs st.children st.subs r).1
            lv (buildDocLeaf k r) hnd1 hmem
          rwa [hleq] at this
      refine ⟨?_, hndout, ?_, ?_, ?_⟩
      · cases htarget : (get_subtopic_node usingSubs st.children st.subs r).2.2 with
        | none => rw [addLeaf_none_subTitles, hsub]
        | some lv => rw [addLeaf_some_subTitles, hsub]
      · have hspec : leafSpec pdfs videos (buildDocLeaf k r) := ⟨r, hp, rfl⟩
        have hInv2 : Inv pdfs videos
            ((L₀ ++ childrenLeaves st.children) ++ [buildDocLeaf k r])
            (st.used ++ [(buildDocLeaf k r).key]) :=
          Inv_snoc pdfs videos _ st.used (buildDocLeaf k r) hInv hk hspec
        have hp2 : List.Perm ((L₀ ++ childrenLeaves st.children) ++ [buildDocLeaf k r])
            (L₀ ++ childrenLeaves (addLeaf (get_subtopic_node usingSubs st.children st.subs r).1
              (get_subtopic_node usingSubs st.children st.subs r).2.2 (buildDocLeaf k r))) := by
          rw [List.append_assoc]
          exact List.Perm.append_left L₀ hperm.symm
        exact Inv_perm pdfs videos _ _ _ hp2 hInv2
      · intro x hx
        exact List.mem_append_left _ hx
      · exact List.mem_append_right _ (List.mem_singleton_self _)
    | none =>
      cases hv : dictGet videos k with
      | some r =>
        rw [processResource_video usingSubs pdfs videos st k r hk hp hv]
        obtain ⟨hleq, hsub, hndout, htgt⟩ :=
          get_subtopic_spec usingSubs st.children st.subs r hsync hnd
        have hperm : List.Perm
            (childrenLeaves (addLeaf (get_subtopic_node usingSubs st.children st.subs r).1
              (get_subtopic_node usingSubs st.children st.subs r).2.2 (buildVideoLeaf k r)))
            (childrenLeaves st.children ++ [buildVideoLeaf k r]) := by
          cases htarget : (get_subtopic_node usingSubs st.children st.subs r).2.2 with
          | none =>
            rw [addLeaf_none_leaves, hleq]
          | some lv =>
            have hmem := htgt lv htarget
            have hnd1 : (subTitles (get_subtopic_node usingSubs st.children st.subs r).1).Nodup := by
              rw [hsub]; exact hndout
            have := addLeaf_some_perm (get_subtopic_node usingSubs st.children st.subs r).1
              lv (buildVideoLeaf k r) hnd1 hmem
            rwa [hleq] at this
        refine ⟨?_, hndout, ?_, ?_, ?_⟩
        · cases htarget : (get_subtopic_node usingSubs st.children st.subs r).2.2 with
          | none => rw [addLeaf_none_subTitles, hsub]
          | some lv => rw [addLeaf_some_subTitles, hsub]
        · have hspec : leafSpec pdfs videos (buildVideoLeaf k r) := ⟨hp, r, hv, rfl⟩
          have hInv2 : Inv pdfs videos
              ((L₀ ++ childrenLeaves st.children) ++ [buildVideoLeaf k r])
              (st.used ++ [(buildVideoLeaf k r).key]) :=
            Inv_snoc pdfs videos _ st.used (buildVideoLeaf k r) hInv hk hspec
          have hp2 : List.Perm ((L₀ ++ childrenLeaves st.children) ++ [buildVideoLeaf k r])
              (L₀ ++ childrenLeaves (addLeaf (get_subtopic_node usingSubs st.children st.subs r).1
                (get_subtopic_node usingSubs st.children st.subs r).2.2 (buildVideoLeaf k r))) := by
            rw [List.append_assoc]
            exact List.Perm.append_left L₀ hperm.symm
          exact Inv_perm pdfs videos _ _ _ hp2 hInv2
        · intro x hx
          exact List.mem_append_left _ hx
        · exact List.mem_append_right _ (List.mem_singleton_self _)
      | none =>
        rw [processResource_none usingSubs pdfs videos st k hk hp hv]
        exact ⟨hsync, hnd, Inv_skip pdfs videos _ st.used k hInv hp hv,
          fun x hx => List.mem_append_left _ hx,
          List.mem_append_right _ (List.mem_singleton_self _)⟩

theorem processLoop_spec (usingSubs : Bool) (pdfs videos : List (String × Resource))
    (ks : List String) (L₀ : List Leaf) (st : InnerState)
    (hsync : subTitles st.children = st.subs) (hnd : st.subs.Nodup)
    (hInv : Inv pdfs videos (L₀ ++ childrenLeaves st.children) st.used) :
    subTitles (processLoop usingSubs pdfs videos st ks).children =
      (processLoop usingSubs pdfs videos st ks).subs ∧
    (processLoop usingSubs pdfs videos st ks).subs.Nodup ∧
    Inv pdfs videos
      (L₀ ++ childrenLeaves (processLoop usingSubs pdfs videos st ks).children)
      (processLoop usingSubs pdfs videos st ks).used ∧
    (∀ x ∈ st.used, x ∈ (processLoop usingSubs pdfs videos st ks).used) ∧
    (∀ k ∈ ks, k ∈ (processLoop usingSubs pdfs videos st ks).used) := by
  induction ks generalizing st with
  | nil =>
    exact ⟨hsync, hnd, hInv, fun x hx => hx, fun k hk => nomatch hk⟩
  | cons k rest ih =>
    have hstep := processResource_spec usingSubs pdfs videos L₀ st k hsync hnd hInv
    obtain ⟨hsync', hnd', hInv', hmono', hk'⟩ := hstep
    have hrest := ih (processResource usingSubs pdfs videos st k) hsync' hnd' hInv'
    obtain ⟨hs, hn, hi, hm, hks⟩ := hrest
    have hfold : processLoop usingSubs pdfs videos st (k :: rest) =
        processLoop usingSubs pdfs videos (processResource usingSubs pdfs videos st k) rest := rfl
    rw [hfold]
    refine ⟨hs, hn, hi, ?_, ?_⟩
    · intro x hx
      exact hm x (hmono' x hx)
    · intro q hq
      rcases List.mem_cons.mp hq with hq | hq
      · subst hq
        exact hm q hk'
      · exact hks q hq

theorem processTopic_spec (pdfs videos : List (String × Resource))
    (used : List String) (topic : String) (ks : List String) (L₀ : List Leaf)
    (hInv : Inv pdfs videos L₀ used) :
    Inv pdfs videos
      (L₀ ++ childrenLeaves (processTopic pdfs videos used topic ks).1.children)
      (processTopic pdfs videos used topic ks).2 ∧
    (∀ x ∈ used, x ∈ (processTopic pdfs videos used topic ks).2) ∧
    (∀ k ∈ ks, k ∈ (processTopic pdfs videos used topic ks).2) := by
  have hInv0 : Inv pdfs videos
      (L₀ ++ childrenLeaves (InnerState.mk [] [] used).children)
      (InnerState.mk [] [] used).used := by
    simpa [childrenLeaves] using hInv
  have h := processLoop_spec (strContains (ks.headD "") "Grade") pdfs videos ks L₀
    ⟨[], [], used⟩ rfl (List.nodup_nil) hInv0
  exact ⟨h.2.2.1, h.2.2.2.1, h.2.2.2.2⟩

theorem constructAux_spec (pdfs videos : List (String × Resource))
    (topics : List (String × List String)) (used : List String) (L₀ : List Leaf)
    (hInv : Inv pdfs videos L₀ used) :
    ∃ used',
      Inv pdfs videos (L₀ ++ treeLeaves (constructAux pdfs videos used topics)) used' ∧
      (∀ x ∈ used, x ∈ used') ∧
      (∀ tp ∈ topics, ∀ k ∈ tp.2, k ∈ used') := by
  induction topics generalizing used L₀ with
  | nil =>
    refine ⟨used, ?_, fun x hx => hx, fun tp htp => nomatch htp⟩
    simpa [treeLeaves] using hInv
  | cons tp rest ih =>
    obtain ⟨hInv1, hmono1, hks1⟩ := processTopic_spec pdfs videos used tp.1 tp.2 L₀ hInv
    obtain ⟨used', hInv2, hmono2, hks2⟩ :=
      ih (processTopic pdfs videos used tp.1 tp.2).2
        (L₀ ++ childrenLeaves (processTopic pdfs videos used tp.1 tp.2).1.children) hInv1
    refine ⟨used', ?_, ?_, ?_⟩
    · have heq : constructAux pdfs videos used (tp :: rest) =
          (processTopic pdfs videos used tp.1 tp.2).1 ::
            constructAux pdfs videos (processTopic pdfs videos used tp.1 tp.2).2 rest := rfl
      rw [heq]
      have htl : treeLeaves ((processTopic pdfs videos used tp.1 tp.2).1 ::
          constructAux pdfs videos (processTopic pdfs videos used tp.1 tp.2).2 rest) =
          childrenLeaves (processTopic pdfs videos used tp.1 tp.2).1.children ++
            treeLeaves (constructAux pdfs videos (processTopic pdfs videos used tp.1 tp.2).2 rest) := rfl
      rw [htl, ← List.append_assoc]
      exact hInv2
    · intro x hx
      exact hmono2 x (hmono1 x hx)
    · intro q hq
      rcases List.mem_cons.mp hq with hq | hq
      · subst hq
        intro k hk
        exact hmono2 k (hks1 k hk)
      · intro k hk
        exact hks2 q hq k hk

theorem leaf_countP_eq_one (k : String) (L : List Leaf)
    (hnd : (L.map Leaf.key).Nodup) (ℓ : Leaf) (hmem : ℓ ∈ L) (hkey : ℓ.key = k) :
    L.countP (fun x => x.key == k) = 1 := by
  induction L with
  | nil => cases hmem
  | cons a rest ih =>
    rw [List.map_cons, List.nodup_cons] at hnd
    rw [List.countP_cons]
    rcases List.mem_cons.mp hmem with hh | hh
    · subst hh
      have hz : rest.countP (fun x => x.key == k) = 0 := by
        rw [List.countP_eq_zero]
        intro x hx hpx
        have hxk : x.key = k := by simpa using hpx
        exact hnd.1 (by rw [hkey, ← hxk]; exact List.mem_map_of_mem Leaf.key hx)
      rw [hz]
      simp [hkey]
    · have hak : ¬((a.key == k) = true) := by
        intro hc
        have hck : a.key = k := by simpa using hc
        exact hnd.1 (by rw [hck, ← hkey]; exact List.mem_map_of_mem Leaf.key hh)
      rw [ih hnd.2 hh]
      simp [hak]

theorem leaf_countP_le_one (k : String) (L : List Leaf)
    (hnd : (L.map Leaf.key).Nodup) :
    L.countP (fun x => x.key == k) ≤ 1 := by
  induction L with
  | nil => simp
  | cons a rest ih =>
    rw [List.map_cons, List.nodup_cons] at hnd
    rw [List.countP_cons]
    by_cases hak : (a.key == k) = true
    · have hz : rest.countP (fun x => x.key == k) = 0 := by
        rw [List.countP_eq_zero]
        intro x hx hpx
        have hxk : x.key = k := by simpa using hpx
        have hck : a.key = k := by simpa using hak
        exact hnd.1 (by rw [hck, ← hxk]; exact List.mem_map_of_mem Leaf.key hx)
      rw [hz]
      simp [hak]
    · have hr := ih hnd.2
      rw [if_neg hak]
      omega

/-- The empty-tree invariant that starts `construct_channel`. -/
theorem Inv_nil (pdfs videos : List (String × Resource)) :
    Inv pdfs videos [] [] := by
  refine ⟨List.nodup_nil, ?_, ?_, ?_⟩
  · intro ℓ h
    exact absurd h (List.not_mem_nil ℓ)
  · intro ℓ h
    exact absurd h (List.not_mem_nil ℓ)
  · intro k h _
    exact absurd h (List.not_mem_nil k)

/-! ## Claim C6: cross-pool deduplication with document precedence -/

/-- Claim C6 holds: a key present in both pools and registered in some
topic group yields exactly one leaf in the assembled tree, that leaf is
the document variant, and no key whatsoever is attached more than
once. -/
theorem claim6_cross_pool_dedup (topics : List (String × List String))
    (pdfs videos : List (String × Resource)) (k : String)
    (hp : (dictGet pdfs k).isSome) (hv : (dictGet videos k).isSome)
    (hg : ∃ tp ∈ topics, k ∈ tp.2) :
    (treeLeaves (construct_channel topics pdfs videos)).countP
        (fun ℓ => ℓ.key == k) = 1 ∧
    (∀ ℓ ∈ treeLeaves (construct_channel topics pdfs videos),
      ℓ.key = k → ℓ.isDoc = true) ∧
    (∀ k', (treeLeaves (construct_channel topics pdfs videos)).countP
        (fun ℓ => ℓ.key == k') ≤ 1) := by
  obtain ⟨used', hInv, _hmono, hall⟩ :=
    constructAux_spec pdfs videos topics [] [] (Inv_nil pdfs videos)
  rw [List.nil_append] at hInv
  have hL : construct_channel topics pdfs videos = constructAux pdfs videos [] topics := rfl
  rw [hL]
  obtain ⟨tp, htp, hk⟩ := hg
  have hku : k ∈ used' := hall tp htp k hk
  obtain ⟨ℓ, hℓ, hkey⟩ := hInv.complete k hku (Or.inl hp)
  refine ⟨leaf_countP_eq_one k _ hInv.nodupKeys ℓ hℓ hkey, ?_, ?_⟩
  · intro ℓ' hℓ' hkey'
    have hs := hInv.spec ℓ' hℓ'
    cases ℓ' with
    | doc _ _ _ => rfl
    | video k' p t =>
      obtain ⟨hnone, _⟩ := hs
      have hkk : k' = k := hkey'
      rw [hkk] at hnone
      rw [hnone] at hp
      cases hp
  · intro k'
    exact leaf_countP_le_one k' _ hInv.nodupKeys

def claim6recD : Resource := ⟨"N", "T", "General", "All", "https://fundawande.org/x.pdf"⟩

def claim6recV : Resource := ⟨"N", "T", "General", "All", "https://fundawande.org/x.mp4"⟩

theorem claim6_witness :
    (treeLeaves (construct_channel [("T", ["k"])] [("k", claim6recD)]
        [("k", claim6recV)])).countP (fun ℓ => ℓ.key == "k") = 1 :=
  (claim6_cross_pool_dedup [("T", ["k"])] [("k", claim6recD)] [("k", claim6recV)]
    "k" (by decide) (by decide) ⟨("T", ["k"]), by decide, by decide⟩).1

/-! ## Claim C3: display titles of the attached leaves -/

def claim3velem : Elem := ⟨"", mkOnclick "/v.mp4", "Intro", "T", "General", "Term 2"⟩

/-- Claim C3 is false for video leaves: a video resource with
`term = "Term 2"` is attached with display title `"Intro"`, not
`"Term 2 - Intro"` — the term prefix of lines 260-264 is applied to
document nodes only, while the video node of line 292 uses the bare
name. -/
theorem claim3_counterexample :
    (pre_run [] [claim3velem]).toOption.map (fun o =>
        treeLeaves (construct_channel o.topics o.pdfs o.videos))
      = some [Leaf.video "T-General-Term_2-Intro_id"
          "https://fundawande.org/v.mp4" "Intro"] ∧
    (pre_run [] [claim3velem]).toOption.map (fun o =>
        (dictGet o.videos "T-General-Term_2-Intro_id").map Resource.term)
      = some (some "Term 2") ∧
    "Intro" ≠ "Term 2 - Intro" := by
  decide

/-- Claim C3, amended: every *document* leaf of the assembled tree is
titled `"<term> - <name>"` when its record's term is not the `"All"`
sentinel and `"<name>"` otherwise, while every *video* leaf is titled
`"<name>"` unconditionally, whatever its term. -/
theorem claim3_amended_titles (topics : List (String × List String))
    (pdfs videos : List (String × Resource)) :
    ∀ ℓ ∈ treeLeaves (construct_channel topics pdfs videos),
      (∀ k p t, ℓ = Leaf.doc k p t → ∃ r, dictGet pdfs k = some r ∧
        t = (if r.term = "All" then r.name else r.term ++ " - " ++ r.name)) ∧
      (∀ k p t, ℓ = Leaf.video k p t → ∃ r, dictGet videos k = some r ∧ t = r.name) := by
  obtain ⟨used', hInv, _hmono, _hall⟩ :=
    constructAux_spec pdfs videos topics [] [] (Inv_nil pdfs videos)
  rw [List.nil_append] at hInv
  intro ℓ hℓ
  have hs := hInv.spec ℓ hℓ
  constructor
  · intro k p t heq
    subst heq
    obtain ⟨r, hr, hbuild⟩ := hs
    refine ⟨r, hr, ?_⟩
    have ht : t = docTitle r := by
      have := hbuild
      simp only [buildDocLeaf, Leaf.doc.injEq] at this
      exact this.2.2
    rw [ht]
    unfold docTitle
    by_cases hterm : r.term = "All"
    · rw [if_pos hterm, if_neg (by rw [hterm]; exact fun hh => hh rfl)]
      rfl
    · rw [if_neg hterm, if_pos hterm]
  · intro k p t heq
    subst heq
    obtain ⟨_hnone, r, hr, hbuild⟩ := hs
    refine ⟨r, hr, ?_⟩
    simp only [buildVideoLeaf, Leaf.video.injEq] at hbuild
    exact hbuild.2.2

def claim3topics : List (String × List String) := [("T", ["k"])]

def claim3rec : Resource := ⟨"N", "T", "General", "Term 2", "u"⟩

def claim3pdfs : List (String × Resource) := [("k", claim3rec)]

theorem claim3_amended_witness :
    buildDocLeaf "k" claim3rec ∈ treeLeaves (construct_channel claim3topics claim3pdfs []) ∧
    (∃ r, dictGet claim3pdfs "k" = some r ∧
      "Term 2 - N" = (if r.term = "All" then r.name else r.term ++ " - " ++ r.name)) :=
  ⟨by decide,
   (claim3_amended_titles claim3topics claim3pdfs [] (buildDocLeaf "k" claim3rec)
       (by decide)).1 "k" "chefdata/compressed/k.pdf" "Term 2 - N" rfl⟩

/-! ## Claim C2: the per-topic subtopic-splitting decision -/

theorem constructAux_mem (pdfs videos : List (String × Resource))
    (topics : List (String × List String)) (used : List String) (n : TNode)
    (h : n ∈ constructAux pdfs videos used topics) :
    ∃ tp ∈ topics, ∃ u, n = (processTopic pdfs videos u tp.1 tp.2).1 := by
  induction topics generalizing used with
  | nil => exact absurd h (List.not_mem_nil n)
  | cons tp rest ih =>
    rcases List.mem_cons.mp h with hh | hh
    · exact ⟨tp, List.mem_cons_self tp rest, used, hh⟩
    · obtain ⟨tp', htp', u, heq⟩ := ih (processTopic pdfs videos used tp.1 tp.2).2 hh
      exact ⟨tp', List.mem_cons_of_mem tp htp', u, heq⟩

/-- With `using_subtopics` false, `get_subtopic_node` always targets the
topic node itself and creates nothing. -/
theorem get_subtopic_node_false (cs : List Child) (subs : List String) (r : Resource) :
    get_subtopic_node false cs subs r = (cs, subs, none) := by
  unfold get_subtopic_node
  split
  · rfl
  · rw [if_neg (by simp)]

theorem processResource_nosub (pdfs videos : List (String × Resource))
    (st : InnerState) (k : String)
    (hall : ∀ c ∈ st.children, c.isSub = false) :
    ∀ c ∈ (processResource false pdfs videos st k).children, c.isSub = false := by
  by_cases hk : k ∈ st.used
  · rw [processResource_mem false pdfs videos st k hk]
    exact hall
  · cases hp : dictGet pdfs k with
    | some r =>
      rw [processResource_pdf false pdfs videos st k r hk hp]
      intro c hc
      rw [get_subtopic_node_false st.children st.subs r] at hc
      simp only [addLeaf] at hc
      rcases List.mem_append.mp hc with hh | hh
      · exact hall c hh
      · rw [List.mem_singleton] at hh
        subst hh
        rfl
    | none =>
      cases hv : dictGet videos k with
      | some r =>
        rw [processResource_video false pdfs videos st k r hk hp hv]
        intro c hc
        rw [get_subtopic_node_false st.children st.subs r] at hc
        simp only [addLeaf] at hc
        rcases List.mem_append.mp hc with hh | hh
        · exact hall c hh
        · rw [List.mem_singleton] at hh
          subst hh
          rfl
      | none =>
        rw [processResource_none false pdfs videos st k hk hp hv]
        exact hall

theorem processLoop_nosub (pdfs videos : List (String × Resource))
    (ks : List String) (st : InnerState)
    (hall : ∀ c ∈ st.children, c.isSub = false) :
    ∀ c ∈ (processLoop false pdfs videos st ks).children, c.isSub = false := by
  induction ks generalizing st with
  | nil => exact hall
  | cons k rest ih =>
    have hstep := processResource_nosub pdfs videos st k hall
    exact ih (processResource false pdfs videos st k) hstep

/-- Claim C2, amended: the subtopic-splitting decision is made exactly
once per topic, from the topic's *first registered identity key* — the
underscored concatenation of topic, level, term and name — and splitting
happens iff that key contains `"Grade"` anywhere.  Since the key embeds
fields other than `level`, the decision is not equivalent to the first
resource's `level` carrying the marker.  A topic whose first key lacks
the marker still produces zero subtopic nodes. -/
theorem claim2_amended_first_key_decides (topics : List (String × List String))
    (pdfs videos : List (String × Resource)) (n : TNode)
    (hn : n ∈ construct_channel topics pdfs videos)
    (hkey : ∀ tp ∈ topics, tp.1 = n.title → strContains (tp.2.headD "") "Grade" = false) :
    ∀ c ∈ n.children, c.isSub = false := by
  obtain ⟨tp, htp, u, heq⟩ := constructAux_mem pdfs videos topics [] n hn
  have htitle : n.title = tp.1 := by rw [heq]; rfl
  have hdecide := hkey tp htp htitle.symm
  have hchildren : n.children =
      (processLoop (strContains (tp.2.headD "") "Grade") pdfs videos
        ⟨[], [], u⟩ tp.2).children := by
    rw [heq]; rfl
  rw [hchildren, hdecide]
  exact processLoop_nosub pdfs videos tp.2 ⟨[], [], u⟩
    (fun c hc => absurd hc (List.not_mem_nil c))

def claim2g1 : Elem := ⟨"/a.pdf", "", "Grade chart", "T", "General", "All"⟩

def claim2g2 : Elem := ⟨"/b.pdf", "", "B", "T", "Grade 1", "All"⟩

/-- Claim C2 is false as stated: the decision at line 242 tests
`"Grade" in self.topics[topic][0]` — the first identity *key*, not the
first resource's `level` field.  Here the first pdf of topic `T` has
`level = "General"` (no grade marker) but name `"Grade chart"`, so the
key `T-General-All-Grade_chart_id` contains `"Grade"`, the topic is
split, and the later `Grade 1` resource produces one subtopic node where
the claim requires zero. -/
theorem claim2_counterexample :
    (pre_run [claim2g1, claim2g2] []).toOption.map (fun o =>
        (o.pdfs.map (fun p => p.2.level)).headD "")
      = some "General" ∧
    strContains "General" "Grade" = false ∧
    (pre_run [claim2g1, claim2g2] []).toOption.map (fun o =>
        (construct_channel o.topics o.pdfs o.videos).map
          (fun n => n.children.countP Child.isSub))
      = some [1] := by
  decide

def claim2topics : List (String × List String) := [("T", ["k"])]

def claim2rec : Resource := ⟨"N", "T", "Grade 1", "All", "u"⟩

def claim2pdfs : List (String × Resource) := [("k", claim2rec)]

def claim2node : TNode :=
  (construct_channel claim2topics claim2pdfs []).headD ⟨"", "", []⟩

theorem claim2_amended_witness :
    claim2node ∈ construct_channel claim2topics claim2pdfs [] ∧
    claim2node.children.countP Child.isSub = 0 := by
  have hmem : claim2node ∈ construct_channel claim2topics claim2pdfs [] := by decide
  have hconc := claim2_amended_first_key_decides claim2topics claim2pdfs [] claim2node
    hmem (by decide)
  refine ⟨hmem, ?_⟩
  rw [List.countP_eq_zero]
  intro c hc
  rw [hconc c hc]
  exact fun hh => nomatch hh

end FundaWande
